import Mathlib

set_option maxHeartbeats 1000000

namespace Diffodil

/-- Whitespace predicate modelling what Python str.strip() removes (ASCII whitespace). -/
def isPySpace (c : Char) : Bool :=
  c = ' ' || c = '\t' || c = '\n' || c = '\r' || c = '\x0b' || c = '\x0c'

/-- Model of Python str.strip() on a list of characters. -/
def pyStrip (l : List Char) : List Char :=
  ((l.dropWhile isPySpace).reverse.dropWhile isPySpace).reverse

/-- Boolean test that p is a leading segment of l, modelling Python str.startswith. -/
def hasPre : List Char → List Char → Bool
  | [], _ => true
  | _ :: _, [] => false
  | p :: ps, c :: cs => if p = c then hasPre ps cs else false

/-- Greedy split of a maximal leading run of decimal digits, as the regex group
backslash-d-plus takes it. -/
def takeDigits : List Char → List Char × List Char
  | [] => ([], [])
  | c :: cs => if c.isDigit then (c :: (takeDigits cs).1, (takeDigits cs).2) else ([], c :: cs)

/-- Numeric value of a digit string, as Python int() computes it on plain digits. -/
def digToNat (l : List Char) : Nat :=
  l.foldl (fun n c => 10 * n + (c.toNat - 48)) 0

/-- The optional comma-count group of the hunk-header regex: if the input begins
with a comma followed by a digit the group consumes the comma and the maximal
digit run, otherwise it matches empty. -/
def parseOptCount : List Char → Option (List Char) × List Char
  | a :: c :: cs =>
    if a = ',' then
      if c.isDigit then (some (takeDigits (c :: cs)).1, (takeDigits (c :: cs)).2)
      else (none, a :: c :: cs)
    else (none, a :: c :: cs)
  | l => (none, l)

/-- An omitted count group defaults to 1; a present one is its numeric value.
This embeds the expressions int(match.group(2) or 1) and int(match.group(4) or 1)
of parse_hunk_header in git.py. -/
def countDefault : Option (List Char) → Nat
  | none => 1
  | some d => digToNat d

def sSpPlus : List Char := [' ', '+']

def sAtDash : List Char := ['@', '@', ' ', '-']

/-- Continuation of the hunk-header parse after the old-range part: the literal
space-plus, the new start, and the optional new count; the regex is unanchored
at the end so any trailing text is accepted. -/
def parseSecond (d1 : List Char) (o1 : Option (List Char)) (r : List Char) :
    Option (Nat × Nat × Nat × Nat) :=
  if hasPre sSpPlus r then
    if (takeDigits (r.drop 2)).1 = [] then none
    else some (digToNat d1, countDefault o1, digToNat (takeDigits (r.drop 2)).1,
      countDefault (parseOptCount (takeDigits (r.drop 2)).2).1)
  else none

/-- The part of the hunk-header parse after the literal at-at-space-dash. -/
def parseAfterDash (rest : List Char) : Option (Nat × Nat × Nat × Nat) :=
  if (takeDigits rest).1 = [] then none
  else parseSecond (takeDigits rest).1 (parseOptCount (takeDigits rest).2).1
    (parseOptCount (takeDigits rest).2).2

/-- Embeds parse_hunk_header of git.py: re.match of the pattern
at-at space dash digits optional-comma-digits space plus digits
optional-comma-digits, anchored at the start of the input only;
a failed match raises, modelled as none. -/
def parseHunkChars (l : List Char) : Option (Nat × Nat × Nat × Nat) :=
  if hasPre sAtDash l then parseAfterDash (l.drop 4) else none

def parse_hunk_header (s : String) : Option (Nat × Nat × Nat × Nat) :=
  parseHunkChars s.data

/-- The literal shape of an optional count group in a hunk header. -/
def optPart : Option (List Char) → List Char
  | none => []
  | some d => ',' :: d

/-- A nonempty all-digit character list. -/
def IsDigits (l : List Char) : Prop := l ≠ [] ∧ ∀ c ∈ l, c.isDigit

/-- Inputs of the form at-at space dash OLD_START optional-comma-OLD_COUNT
space plus NEW_START optional-comma-NEW_COUNT followed by anything, exactly
the strings accepted by the hunk-header regex of the spec. -/
def HunkHeaderForm (l : List Char) : Prop :=
  ∃ d1 o1 d2 o2 rest,
    l = '@' :: '@' :: ' ' :: '-' ::
      (d1 ++ optPart o1 ++ ' ' :: '+' :: (d2 ++ optPart o2 ++ rest)) ∧
    IsDigits d1 ∧ IsDigits d2 ∧
    (∀ x, o1 = some x → IsDigits x) ∧ (∀ x, o2 = some x → IsDigits x)

def headNotDigit : List Char → Bool
  | [] => true
  | c :: _ => !c.isDigit

def sDiffGit : List Char := ['d', 'i', 'f', 'f', ' ', '-', '-', 'g', 'i', 't']

def sNewFileMode : List Char := ['n', 'e', 'w', ' ', 'f', 'i', 'l', 'e', ' ', 'm', 'o', 'd', 'e']

def sDelFileMode : List Char :=
  ['d', 'e', 'l', 'e', 't', 'e', 'd', ' ', 'f', 'i', 'l', 'e', ' ', 'm', 'o', 'd', 'e']

def sDashSp : List Char := ['-', '-', '-', ' ']

def sPlusSp : List Char := ['+', '+', '+', ' ']

def sPlusB : List Char := ['+', '+', '+', ' ', 'b', '/']

def sDashA : List Char := ['-', '-', '-', ' ', 'a', '/']

def sAtAt : List Char := ['@', '@']

def sPlus1 : List Char := ['+']

def sPlus3 : List Char := ['+', '+', '+']

def sDash1 : List Char := ['-']

def sDash3 : List Char := ['-', '-', '-']

/-- Python str.startswith for a string against a pattern given as characters. -/
def startsW (s : String) (p : List Char) : Bool := hasPre p s.data

/-- A diff content line counted as added: starts with plus but not triple plus. -/
def isAddLine (s : String) : Bool := startsW s sPlus1 && !(startsW s sPlus3)

/-- A diff content line counted as removed: starts with dash but not triple dash. -/
def isRemLine (s : String) : Bool := startsW s sDash1 && !(startsW s sDash3)

/-- Embeds the DiffHunk dataclass of git.py. -/
structure DiffHunk where
  header : String
  old_start : Nat
  old_count : Nat
  new_start : Nat
  new_count : Nat
  content : List String := []
  added_lines : Nat := 0
  removed_lines : Nat := 0
deriving DecidableEq

/-- Embeds the DiffFile dataclass of git.py. -/
structure DiffFile where
  file_path : String
  change_type : String
  hunks : List DiffHunk := []
deriving DecidableEq

/-- The loop state of the unified-diff parse in get_git_diff and get_commit_diff:
the finished files, the open file, the open hunk. -/
structure PState where
  files : List DiffFile
  cur : Option DiffFile
  hk : Option DiffHunk
deriving DecidableEq

/-- Appending an open hunk to the open file, as the two guarded appends of
current_hunk into current_file.hunks do in git.py. -/
def flushHunk (cur : Option DiffFile) (hk : Option DiffHunk) : Option DiffFile :=
  match cur, hk with
  | some f, some h => some { f with hunks := f.hunks ++ [h] }
  | c, _ => c

/-- Appending the open file to the finished list when one is open. -/
def pushCur (files : List DiffFile) (cur : Option DiffFile) : List DiffFile :=
  match cur with
  | some f => files ++ [f]
  | none => files

/-- The path-setting rule for dash-dash-dash / plus-plus-plus marker lines in
get_git_diff: only when a file is open and its path is still empty, a line
starting with plus-plus-plus-space-b-slash or dash-dash-dash-space-a-slash
sets the path to the line with its first six characters removed. -/
def markerPath (cur : Option DiffFile) (line : String) : Option DiffFile :=
  match cur with
  | none => none
  | some f =>
    if f.file_path = "" then
      if startsW line sPlusB then some { f with file_path := ⟨line.data.drop 6⟩ }
      else if startsW line sDashA then some { f with file_path := ⟨line.data.drop 6⟩ }
      else some f
    else some f

/-- One iteration of the line loop shared verbatim by get_git_diff and
get_commit_diff in git.py, with the elif chain in source order; a malformed
hunk header makes the parse fail (the ValueError), modelled as none. -/
def step (st : PState) (line : String) : Option PState :=
  if startsW line sDiffGit then
    some ⟨pushCur st.files (flushHunk st.cur st.hk), some ⟨"", "modified", []⟩, none⟩
  else if startsW line sNewFileMode then
    some ⟨st.files, st.cur.map (fun f => { f with change_type := "added" }), st.hk⟩
  else if startsW line sDelFileMode then
    some ⟨st.files, st.cur.map (fun f => { f with change_type := "deleted" }), st.hk⟩
  else if startsW line sDashSp || startsW line sPlusSp then
    some ⟨st.files, markerPath st.cur line, st.hk⟩
  else if startsW line sAtAt then
    match parseHunkChars (pyStrip line.data) with
    | none => none
    | some (a, b, c, d) =>
      some ⟨st.files, flushHunk st.cur st.hk, some ⟨⟨pyStrip line.data⟩, a, b, c, d, [], 0, 0⟩⟩
  else
    match st.hk with
    | none => some st
    | some h =>
      some ⟨st.files, st.cur, some { h with
        content := h.content ++ [line],
        added_lines := h.added_lines + (if isAddLine line then 1 else 0),
        removed_lines := h.removed_lines +
          (if !(isAddLine line) && isRemLine line then 1 else 0) }⟩

def runDiff : PState → List String → Option PState
  | st, [] => some st
  | st, l :: ls =>
    match step st l with
    | none => none
    | some st2 => runDiff st2 ls

/-- The unified-diff parse of get_git_diff / get_commit_diff on the list of
stdout lines, including the final flush of the open hunk and open file. -/
def parseUnifiedDiff (lines : List String) : Option (List DiffFile) :=
  match runDiff ⟨[], none, none⟩ lines with
  | none => none
  | some st => some (pushCur st.files (flushHunk st.cur st.hk))

/-- The counter invariant of a hunk: the running added and removed counts agree
with the content lines counted by the plus / dash rules. -/
def GoodHunk (h : DiffHunk) : Prop :=
  h.added_lines = h.content.countP isAddLine ∧
  h.removed_lines = h.content.countP isRemLine

/-- The counter invariant over the whole loop state. -/
def GoodState (st : PState) : Prop :=
  (∀ f ∈ st.files, ∀ h ∈ f.hunks, GoodHunk h) ∧
  (∀ f, st.cur = some f → ∀ h ∈ f.hunks, GoodHunk h) ∧
  (∀ h, st.hk = some h → GoodHunk h)

/-- Concrete raw diff used to exercise the unified-diff parse. -/
def exDiffLines : List String :=
  [("diff --git a/f b/f"), ("--- a/f"), ("+++ b/f"), ("@@ -1,2 +1,2 @@"),
    (" ctx"), ("-old"), ("+new")]

/-- Expected parse of exDiffLines. -/
def exDiffParsed : List DiffFile :=
  [⟨("f"), ("modified"),
    [⟨("@@ -1,2 +1,2 @@"), 1, 2, 1, 2, [(" ctx"), ("-old"), ("+new")], 1, 1⟩]⟩]

/-- Characters strictly before the first occurrence of t, the left half of
Python split(t, 1). -/
def takeUntilChar (t : Char) : List Char → List Char
  | [] => []
  | x :: xs => if x = t then [] else x :: takeUntilChar t xs

/-- Characters strictly after the first occurrence of t, the right half of
Python split(t, 1). -/
def dropAfterChar (t : Char) : List Char → List Char
  | [] => []
  | x :: xs => if x = t then xs else dropAfterChar t xs

/-- Split on the first occurrence of a multi-character separator; none when the
separator does not occur, matching the Python membership test plus split(sep, 1). -/
def splitFirstSub (sep : List Char) : List Char → Option (List Char × List Char)
  | [] => none
  | c :: cs =>
    if hasPre sep (c :: cs) then some ([], (c :: cs).drop sep.length)
    else
      match splitFirstSub sep cs with
      | some (a, b) => some (c :: a, b)
      | none => none

/-- Python str.endswith on character lists. -/
def endsW (l suf : List Char) : Bool := hasPre suf.reverse l.reverse

def sArrowSep : List Char := [' ', '=', '>', ' ']

def sNewSuf : List Char := [' ', '(', 'n', 'e', 'w', ')']

def sGoneSuf : List Char := [' ', '(', 'g', 'o', 'n', 'e', ')']

def sBin : List Char := ['B', 'i', 'n']

/-- Embeds the GitFileChangeType enum of git.py. -/
inductive GitFileChangeType where
  | added
  | deleted
  | modified
  | renamed
  | copied
deriving DecidableEq

/-- Embeds the FileChange dataclass of git.py. -/
structure FileChange where
  path : String
  change_type : GitFileChangeType
  old_path : Option String := none
  mode_change : Option (String × String) := none
  is_binary : Bool := false
  additions : Option Int := none
  deletions : Option Int := none
  changes : Option Int := none
deriving DecidableEq

/-- Models CPython int() on the whitespace-free tokens that occur in compact
summaries: an optional sign followed by a nonempty run of decimal digits;
anything else raises ValueError, modelled as none. -/
def pyIntTok : List Char → Option Int
  | '-' :: ds =>
    if !ds.isEmpty && ds.all (fun c => c.isDigit) then some (-(digToNat ds : Int)) else none
  | '+' :: ds =>
    if !ds.isEmpty && ds.all (fun c => c.isDigit) then some ((digToNat ds : Int)) else none
  | ds =>
    if !ds.isEmpty && ds.all (fun c => c.isDigit) then some ((digToNat ds : Int)) else none

/-- The change-type and path rules of parse_compact_summary_line applied to the
stripped left half: a literal space-arrow-space separator means renamed with the
two trimmed halves, a trailing space-paren-new suffix means added, a trailing
space-paren-gone suffix means deleted, anything else is modified. -/
def classifyLeft (fp : List Char) : GitFileChangeType × List Char × Option (List Char) :=
  match splitFirstSub sArrowSep fp with
  | some (a, b) => (GitFileChangeType.renamed, pyStrip b, some (pyStrip a))
  | none =>
    if endsW fp sNewSuf then
      (GitFileChangeType.added, pyStrip (fp.take (fp.length - 6)), none)
    else if endsW fp sGoneSuf then
      (GitFileChangeType.deleted, pyStrip (fp.take (fp.length - 7)), none)
    else (GitFileChangeType.modified, fp, none)

/-- The first whitespace-delimited token of the changes part, Python
changes_part.split() element 0. -/
def firstTok (cp : List Char) : List Char :=
  (cp.dropWhile isPySpace).takeWhile (fun c => !isPySpace c)

/-- The right-half rules of parse_compact_summary_line: a part starting with
Bin marks the entry binary; otherwise, when a first token exists and parses as
an integer, changes is that integer and additions and deletions are the counts
of plus and dash characters in the whole part; a non-numeric token leaves the
counts unset. -/
def countsApply (fc : FileChange) (cp : List Char) : FileChange :=
  if hasPre sBin cp then { fc with is_binary := true }
  else if (firstTok cp).isEmpty then fc
  else
    match pyIntTok (firstTok cp) with
    | some n =>
      { fc with
        additions := some ((cp.count '+' : Int))
        deletions := some ((cp.count '-' : Int))
        changes := some n }
    | none => fc

def sRemotes : List Char := ['r', 'e', 'm', 'o', 't', 'e', 's', '/']

def sArrow2 : List Char := ['-', '>']

def sStar : List Char := ['*']

def sStarSp : List Char := ['*', ' ']

/-- Embeds the GitBranch dataclass of git.py. -/
structure GitBranch where
  name : String
  is_current : Bool
  is_remote : Bool
  remote : Option String := none
  points_to : Option String := none
deriving DecidableEq

/-- Python str.removeprefix on character lists. -/
def removePre (p l : List Char) : List Char :=
  if hasPre p l then l.drop p.length else l

/-- Element 1 of Python split on slash: the text between the first and second
slash, or everything after the first slash when no second one exists; only
used under the is_remote guard, where a slash is present. -/
def secondSeg (l : List Char) : List Char :=
  takeUntilChar '/' (dropAfterChar '/' l)

/-- The body of the branch-line loop of parse_git_branches after the current
marker has been handled: the arrow split, the remotes detection, the remote
segment, the prefix removal. -/
def branchFromLine (cur : Bool) (line2 : List Char) : GitBranch :=
  match splitFirstSub sArrow2 line2 with
  | some (np, tp) =>
    { name := ⟨removePre sRemotes (pyStrip np)⟩
      is_current := cur
      is_remote := hasPre sRemotes (pyStrip np)
      remote := if hasPre sRemotes (pyStrip np) then
          some ((⟨secondSeg (pyStrip np)⟩ : String)) else none
      points_to := some ((⟨pyStrip tp⟩ : String)) }
  | none =>
    { name := ⟨removePre sRemotes line2⟩
      is_current := cur
      is_remote := hasPre sRemotes line2
      remote := if hasPre sRemotes line2 then
          some ((⟨secondSeg line2⟩ : String)) else none
      points_to := none }

/-- One iteration of the loop of parse_git_branches in git.py: the line is
stripped, a line starting with star is marked current and has its first two
characters removed (then re-stripped); the rest is branchFromLine. -/
def parseBranchLineL (raw : List Char) : GitBranch :=
  branchFromLine (hasPre sStar (pyStrip raw))
    (if hasPre sStar (pyStrip raw) then pyStrip ((pyStrip raw).drop 2) else pyStrip raw)

/-- Split on every occurrence of a separator character. -/
def splitCharAll (t : Char) : List Char → List (List Char)
  | [] => [[]]
  | c :: cs =>
    match splitCharAll t cs with
    | [] => [[]]
    | r :: rs => if c = t then [] :: r :: rs else (c :: r) :: rs

/-- Python str.splitlines on stripped newline-separated text: the empty string
has no lines, otherwise the newline-separated pieces (a stripped string never
ends in a newline, so no trailing empty piece arises). -/
def pySplitLines (l : List Char) : List (List Char) :=
  if l.isEmpty then [] else splitCharAll '\n' l

/-- Embeds parse_git_branches of git.py. -/
def parse_git_branches (output : String) : List GitBranch :=
  (pySplitLines (pyStrip output.data)).map parseBranchLineL

/-- The stripped left half of a compact-summary line. -/
def leftPartOf (s : String) : List Char :=
  pyStrip (takeUntilChar '|' (pyStrip s.data))

/-- The stripped right half of a compact-summary line. -/
def rightPartOf (s : String) : List Char :=
  pyStrip (dropAfterChar '|' (pyStrip s.data))

/-- Embeds the GitDiffAlgorithm enum of git.py. -/
inductive GitDiffAlgorithm where
  | myers
  | minimal
  | patience
  | histogram
deriving DecidableEq

/-- Embeds the GitFlags dataclass of git.py; Python ints are modelled as Int. -/
structure GitFlags where
  max_count : Int := 25
  context_lines : Int := 3
  diff_algo : GitDiffAlgorithm := GitDiffAlgorithm.myers
  ignore_all_space : Bool := false
deriving DecidableEq

/-- Embeds the SessionState dataclass of server.py. -/
structure SessionState where
  repo : Option String := none
  branch : Option String := none
  commit_a : Option String := none
  commit_b : Option String := none
  open_paths : List String := []
  git_flags : GitFlags := {}
deriving DecidableEq

/-- Python truthiness of an optional string field: None and the empty string
are falsy, anything else truthy. -/
def truthyS : Option String → Bool
  | none => false
  | some s => !s.isEmpty

/-- Descriptors of the events the session engine enqueues; the gateway calls
are recorded by their arguments (repository, endpoints, flags, path filter)
rather than by running git. -/
inductive SEvent where
  | sessionState (st : SessionState)
  | repos (rs : List String)
  | branches (repo : String)
  | tags (repo : String)
  | commits (repo : String) (branch : Option String) (n : Nat)
  | diffSummary (repo : String) (a : String) (b : Option String)
  | diff (repo : String) (a : String) (b : Option String) (flags : GitFlags)
      (paths : Option (List String)) (partialFlag : Bool)
deriving DecidableEq

/-- Embeds send_diff of server.py: a two-endpoint diff when repo and both
endpoints are truthy, a single-commit diff when only endpoint A is, nothing
otherwise; the event records the path filter and the paths-is-not-None
partial flag. -/
def sendDiff (paths : Option (List String)) (s : SessionState) : List SEvent :=
  if truthyS s.repo && truthyS s.commit_a && truthyS s.commit_b then
    [SEvent.diff (s.repo.getD ("")) (s.commit_a.getD ("")) (some (s.commit_b.getD ("")))
      s.git_flags paths paths.isSome]
  else if truthyS s.repo && truthyS s.commit_a then
    [SEvent.diff (s.repo.getD ("")) (s.commit_a.getD ("")) none s.git_flags paths paths.isSome]
  else []

/-- Embeds send_diff_summary of server.py. -/
def sendDiffSummary (s : SessionState) : List SEvent :=
  if truthyS s.repo && truthyS s.commit_a && truthyS s.commit_b then
    [SEvent.diffSummary (s.repo.getD ("")) (s.commit_a.getD ("")) (some (s.commit_b.getD ("")))]
  else if truthyS s.repo && truthyS s.commit_a then
    [SEvent.diffSummary (s.repo.getD ("")) (s.commit_a.getD ("")) none]
  else []

/-- Embeds the MsgClient union of server.py. -/
inductive MsgClient where
  | ping
  | pong
  | heartbeat (timestamp : Int)
  | setCommitA (commit : String)
  | resetCommitA
  | setCommitB (commit : String)
  | resetCommitB
  | swapCommits
  | contextInc
  | contextDec
  | contextReset
  | ignoreAllSpace (value : Bool)
  | repoSelect (repo : String)
  | getDiff (paths : Option (List String))
  | branchSelect (branch : String)
  | openPath (path : String)
  | closePath (path : String)
  | setOpenPaths (paths : List String)
deriving DecidableEq

/-- Embeds send_repo_data of server.py: branch list, first 50 tags, 25 most
recent commits, then the session-state echo. -/
def sendRepoData (repo : String) (branch : Option String) (st : SessionState) : List SEvent :=
  [SEvent.branches repo, SEvent.tags repo, SEvent.commits repo branch 25,
    SEvent.sessionState st]

/-- The state mutation of the repo-select handler: both endpoints reset, the
repository set, the branch resolved to the current checked-out branch
(modelled by the resolve oracle). -/
def repoSelectState (resolve : String → String) (r : String) (s : SessionState) :
    SessionState :=
  { s with
    commit_a := none
    commit_b := none
    repo := some r
    branch := some (resolve r) }

/-- Embeds handle_client_msg of server.py: the state effect, the events pushed
inline, and whether ev_state_change is set. get_current_branch is modelled by
the resolve oracle (its result for a repository path); ping and pong fall to
the log-only default arm as in the source. -/
def applyClientMsg (resolve : String → String) (m : MsgClient) (s : SessionState) :
    SessionState × List SEvent × Bool :=
  match m with
  | .heartbeat _ => (s, [], false)
  | .setCommitA c => ({ s with commit_a := some c }, [], true)
  | .resetCommitA => ({ s with commit_a := none }, [], true)
  | .setCommitB c => ({ s with commit_b := some c }, [], true)
  | .resetCommitB => ({ s with commit_b := none }, [], true)
  | .swapCommits => ({ s with commit_a := s.commit_b, commit_b := s.commit_a }, [], true)
  | .contextInc =>
    ({ s with git_flags :=
      { s.git_flags with context_lines := s.git_flags.context_lines + 1 } }, [], true)
  | .contextDec =>
    if s.git_flags.context_lines > 0 then
      ({ s with git_flags :=
        { s.git_flags with context_lines := s.git_flags.context_lines - 1 } }, [], true)
    else (s, [], false)
  | .contextReset =>
    if s.git_flags.context_lines ≠ 3 then
      ({ s with git_flags := { s.git_flags with context_lines := 3 } }, [], true)
    else (s, [], false)
  | .ignoreAllSpace v =>
    ({ s with git_flags := { s.git_flags with ignore_all_space := v } }, [], true)
  | .getDiff paths => (s, sendDiff paths s, false)
  | .repoSelect r =>
    if s.repo ≠ some r then
      (repoSelectState resolve r s, sendRepoData r none (repoSelectState resolve r s), true)
    else (s, [], false)
  | .branchSelect b =>
    if s.branch ≠ some b then
      (({ s with branch := some b } : SessionState),
        (match s.repo with
          | some r => if r.isEmpty then [] else [SEvent.commits r (some b) 25]
          | none => []), true)
    else (s, [], false)
  | .openPath p =>
    if p ∈ s.open_paths then (s, [], true)
    else ({ s with open_paths := s.open_paths ++ [p] }, [], true)
  | .closePath p =>
    if p ∈ s.open_paths then ({ s with open_paths := s.open_paths.erase p }, [], true)
    else (s, [], false)
  | .setOpenPaths ps => ({ s with open_paths := ps }, [], true)
  | .ping => (s, [], false)
  | .pong => (s, [], false)

/-- The state after a sequence of client commands is dispatched in order. -/
def applyMsgs (resolve : String → String) (ms : List MsgClient) (s : SessionState) :
    SessionState :=
  ms.foldl (fun st m => (applyClientMsg resolve m st).1) s

/-- The state a fresh connection starts with in websocket_endpoint. -/
def initialSessionState : SessionState := {}

/-- The paths newly opened since the snapshot; the Python set difference is
modelled as a deduplicated filter (the watcher only tests it for emptiness
and passes it as a path filter, so element order is immaterial). -/
def newPathsOf (prev cur : SessionState) : List String :=
  (cur.open_paths.filter (fun p => !(prev.open_paths.contains p))).dedup

/-- Embeds one wake of handle_state_changes_loop of server.py: the session
echo always; then, when repository, branch, endpoint A, or the comparison of
commit_b against the snapshot's commit_a (the source's condition, reproduced
faithfully) reports a difference, the compact summary followed by a diff
scoped to the open paths when any are open; otherwise a diff scoped to the
newly opened paths when any. -/
def watcherEvents (prev cur : SessionState) : List SEvent :=
  [SEvent.sessionState cur] ++
    (if cur.repo ≠ prev.repo ∨ cur.branch ≠ prev.branch ∨
        cur.commit_a ≠ prev.commit_a ∨ cur.commit_b ≠ prev.commit_a then
      sendDiffSummary cur ++
        (if cur.open_paths.isEmpty then [] else sendDiff (some cur.open_paths) cur)
    else
      (if (newPathsOf prev cur).isEmpty then []
        else sendDiff (some (newPathsOf prev cur)) cur))

/-- Snapshot state before the wake used in the C1 failing input. -/
def watcherPrevEx : SessionState :=
  { repo := some ("r"), branch := some ("m"), commit_a := some ("X"), commit_b := some ("Y") }

/-- State after set-commit-b changes endpoint B to X (the snapshot's endpoint A). -/
def watcherCurEx : SessionState := { watcherPrevEx with commit_b := some ("X") }

/-- Session state with both endpoints set and one open path, for the C2
counterexample. -/
def getDiffStateEx : SessionState :=
  { repo := some ("r"), branch := some ("m"), commit_a := some ("A"),
    commit_b := some ("B"), open_paths := [("a.txt")] }

/-- Session state with endpoint A unset but endpoint B set, for C10. -/
def noAEx : SessionState := { repo := some ("r"), commit_b := some ("B") }

/-- An expand or collapse command on the expanded-path set. -/
inductive PathOp where
  | openP (p : String)
  | closeP (p : String)
deriving DecidableEq

/-- The client message carrying a path operation. -/
def pathOpMsg : PathOp → MsgClient
  | .openP p => MsgClient.openPath p
  | .closeP p => MsgClient.closePath p

/-- The set semantics of one path operation. -/
def setStep (s : Finset String) : PathOp → Finset String
  | .openP p => insert p s
  | .closeP p => s.erase p

/-- The set semantics of a sequence of path operations. -/
def foldSet (ops : List PathOp) (s : Finset String) : Finset String :=
  ops.foldl setStep s

/-- The list-level effect of one path operation as handle_client_msg performs
it: append if absent on open, remove the occurrence on close. -/
def listStep (l : List String) : PathOp → List String
  | .openP p => if p ∈ l then l else l ++ [p]
  | .closeP p => if p ∈ l then l.erase p else l

/-- Embeds parse_compact_summary_line of git.py. -/
def parse_compact_summary_line (s : String) : Option FileChange :=
  if (pyStrip s.data).isEmpty then none
  else if !((pyStrip s.data).contains '|') then none
  else
    some (countsApply
      ⟨⟨(classifyLeft (leftPartOf s)).2.1⟩, (classifyLeft (leftPartOf s)).1,
        ((classifyLeft (leftPartOf s)).2.2).map (fun a => (⟨a⟩ : String)),
        none, false, none, none, none⟩
      (rightPartOf s))

theorem hasPre_iff (p l : List Char) : hasPre p l = true ↔ ∃ t, l = p ++ t := by
  induction p generalizing l with
  | nil => exact ⟨fun _ => ⟨l, rfl⟩, fun _ => rfl⟩
  | cons a ps ih =>
    cases l with
    | nil =>
      constructor
      · intro h; simp [hasPre] at h
      · rintro ⟨t, ht⟩; simp at ht
    | cons c cs =>
      constructor
      · intro h
        simp only [hasPre] at h
        by_cases hac : a = c
        · subst hac
          rw [if_pos rfl] at h
          obtain ⟨t, rfl⟩ := (ih cs).1 h
          exact ⟨t, rfl⟩
        · rw [if_neg hac] at h; simp at h
      · rintro ⟨t, ht⟩
        rw [List.cons_append] at ht
        injection ht with h1 h2
        subst h1
        simp only [hasPre, if_pos rfl]
        exact (ih cs).2 ⟨t, h2⟩

theorem hasPre_head {a b : Char} {ps qs l : List Char}
    (ha : hasPre (a :: ps) l = true) (hb : hasPre (b :: qs) l = true) : a = b := by
  obtain ⟨t, rfl⟩ := (hasPre_iff _ _).1 ha
  obtain ⟨u, hu⟩ := (hasPre_iff _ _).1 hb
  rw [List.cons_append, List.cons_append] at hu
  have h1 := congrArg (fun x => x.headD a) hu
  simpa using h1

theorem hasPre_false_of_ne {a b : Char} {ps qs l : List Char}
    (ha : hasPre (a :: ps) l = true) (hne : b ≠ a) : hasPre (b :: qs) l = false := by
  by_contra h
  exact hne (hasPre_head (by simpa using h) ha)

theorem takeDigits_split (l : List Char) : (takeDigits l).1 ++ (takeDigits l).2 = l := by
  induction l with
  | nil => rfl
  | cons c cs ih =>
    by_cases h : c.isDigit
    · simp [takeDigits, h, ih]
    · simp [takeDigits, h]

theorem takeDigits_digits (l : List Char) : ∀ c ∈ (takeDigits l).1, c.isDigit := by
  induction l with
  | nil => simp [takeDigits]
  | cons c cs ih =>
    by_cases h : c.isDigit
    · intro x hx
      simp only [takeDigits, if_pos h, List.mem_cons] at hx
      rcases hx with rfl | hx
      · exact h
      · exact ih x hx
    · simp [takeDigits, h]

theorem takeDigits_cons_not {c : Char} {cs : List Char} (h : ¬ c.isDigit) :
    takeDigits (c :: cs) = ([], c :: cs) := by
  simp [takeDigits, h]

theorem takeDigits_append (d r : List Char) (hd : ∀ c ∈ d, c.isDigit) :
    takeDigits (d ++ r) = (d ++ (takeDigits r).1, (takeDigits r).2) := by
  induction d with
  | nil => simp
  | cons c cs ih =>
    have hc : c.isDigit := hd c (List.mem_cons_self c cs)
    have ih2 := ih (fun x hx => hd x (List.mem_cons_of_mem c hx))
    simp [takeDigits, hc, ih2]

theorem takeDigits_exact (d r : List Char) (hd : ∀ c ∈ d, c.isDigit)
    (hr : headNotDigit r = true) : takeDigits (d ++ r) = (d, r) := by
  rw [takeDigits_append d r hd]
  cases r with
  | nil => simp [takeDigits]
  | cons c cs =>
    have hc : ¬ c.isDigit := by simpa [headNotDigit] using hr
    rw [takeDigits_cons_not hc]
    simp

theorem parseOptCount_split (l : List Char) :
    optPart (parseOptCount l).1 ++ (parseOptCount l).2 = l := by
  match l with
  | [] => rfl
  | [a] => rfl
  | a :: c :: cs =>
    by_cases ha : a = ','
    · by_cases hc : c.isDigit
      · subst ha
        simp [parseOptCount, hc, optPart, takeDigits_split]
      · simp [parseOptCount, ha, hc, optPart]
    · simp [parseOptCount, ha, optPart]

theorem parseOptCount_some (l x : List Char) (h : (parseOptCount l).1 = some x) :
    IsDigits x := by
  match l with
  | [] => exact absurd h (by simp [parseOptCount])
  | [a] => exact absurd h (by simp [parseOptCount])
  | a :: c :: cs =>
    by_cases ha : a = ','
    · by_cases hc : c.isDigit
      · subst ha
        simp [parseOptCount, hc] at h
        subst h
        constructor
        · simp [takeDigits, hc]
        · exact takeDigits_digits _
      · exact absurd h (by simp [parseOptCount, ha, hc])
    · exact absurd h (by simp [parseOptCount, ha])

theorem parseOptCount_sp (o : Option (List Char)) (tail : List Char)
    (ho : ∀ x, o = some x → IsDigits x) :
    parseOptCount (optPart o ++ (' ' :: '+' :: tail)) = (o, ' ' :: '+' :: tail) := by
  cases o with
  | none =>
    simp only [optPart, List.nil_append]
    simp [parseOptCount]
  | some x =>
    obtain ⟨hne, hdig⟩ := ho x rfl
    cases x with
    | nil => exact absurd rfl hne
    | cons c cs =>
      have hc : c.isDigit := hdig c (List.mem_cons_self c cs)
      have hexact : takeDigits (c :: (cs ++ (' ' :: '+' :: tail))) = (c :: cs, ' ' :: '+' :: tail) := by
        have h := takeDigits_exact (c :: cs) (' ' :: '+' :: tail) hdig (by simp [headNotDigit])
        simpa using h
      show parseOptCount (',' :: c :: (cs ++ (' ' :: '+' :: tail))) = (some (c :: cs), ' ' :: '+' :: tail)
      simp [parseOptCount, hc, hexact]

/-- C3: parse_hunk_header succeeds exactly on inputs beginning with the form
at-at space dash OLD_START optional-comma-OLD_COUNT space plus NEW_START
optional-comma-NEW_COUNT (the anchored regex of git.py), fails on every other
input, and returns the four integers with an omitted count defaulting to 1:
the header at-at -10,7 +12,9 at-at yields (10,7,12,9) and
at-at -1 +1,2 at-at yields (1,1,1,2). -/
theorem parse_hunk_header_correct :
    (∀ l : List Char, (parseHunkChars l).isSome ↔ HunkHeaderForm l) ∧
    parse_hunk_header ("@@ -10,7 +12,9 @@") = some (10, 7, 12, 9) ∧
    parse_hunk_header ("@@ -1 +1,2 @@") = some (1, 1, 1, 2) := by
  refine ⟨fun l => ⟨?_, ?_⟩, by decide, by decide⟩
  · intro h
    rw [parseHunkChars] at h
    by_cases h0 : hasPre sAtDash l
    swap
    · rw [if_neg h0] at h; simp at h
    rw [if_pos h0] at h
    obtain ⟨t, rfl⟩ := (hasPre_iff sAtDash l).1 h0
    rw [show (sAtDash ++ t).drop 4 = t by simp [sAtDash]] at h
    rw [parseAfterDash] at h
    obtain ⟨dA, rA, hA⟩ : ∃ a b, takeDigits t = (a, b) := ⟨_, _, rfl⟩
    rw [hA] at h
    dsimp only at h
    obtain ⟨oB, rB, hB⟩ : ∃ o r, parseOptCount rA = (o, r) := ⟨_, _, rfl⟩
    rw [hB] at h
    dsimp only at h
    by_cases h1 : dA = []
    · rw [if_pos h1] at h; simp at h
    rw [if_neg h1] at h
    rw [parseSecond] at h
    by_cases h2 : hasPre sSpPlus rB
    swap
    · rw [if_neg h2] at h; simp at h
    rw [if_pos h2] at h
    obtain ⟨t2, ht2⟩ := (hasPre_iff sSpPlus rB).1 h2
    rw [show rB.drop 2 = t2 by rw [ht2]; simp [sSpPlus]] at h
    obtain ⟨dC, rC, hC⟩ : ∃ a b, takeDigits t2 = (a, b) := ⟨_, _, rfl⟩
    rw [hC] at h
    dsimp only at h
    by_cases h3 : dC = []
    · rw [if_pos h3] at h; simp at h
    obtain ⟨oD, rD, hD⟩ : ∃ o r, parseOptCount rC = (o, r) := ⟨_, _, rfl⟩
    have e1 : dA ++ rA = t := by
      have e := takeDigits_split t; rw [hA] at e; simpa using e
    have e2 : optPart oB ++ rB = rA := by
      have e := parseOptCount_split rA; rw [hB] at e; simpa using e
    have e3 : dC ++ rC = t2 := by
      have e := takeDigits_split t2; rw [hC] at e; simpa using e
    have e4 : optPart oD ++ rD = rC := by
      have e := parseOptCount_split rC; rw [hD] at e; simpa using e
    have ht2b : rB = ' ' :: '+' :: t2 := ht2
    refine ⟨dA, oB, dC, oD, rD, ?_, ?_, ?_, ?_, ?_⟩
    · have : sAtDash ++ t = '@' :: '@' :: ' ' :: '-' :: t := rfl
      rw [this, ← e1, ← e2, ht2b, ← e3, ← e4]
      simp [List.append_assoc]
    · refine ⟨h1, ?_⟩
      have hdig := takeDigits_digits t
      rw [hA] at hdig
      simpa using hdig
    · refine ⟨h3, ?_⟩
      have hdig := takeDigits_digits t2
      rw [hC] at hdig
      simpa using hdig
    · intro x hx
      apply parseOptCount_some rA x
      rw [hB]
      simpa using hx
    · intro x hx
      apply parseOptCount_some rC x
      rw [hD]
      simpa using hx
  · rintro ⟨d1, o1, d2, o2, rest, rfl, hd1, hd2, ho1, ho2⟩
    have hpre : hasPre sAtDash ('@' :: '@' :: ' ' :: '-' ::
        (d1 ++ optPart o1 ++ ' ' :: '+' :: (d2 ++ optPart o2 ++ rest))) = true := by
      simp [sAtDash, hasPre]
    rw [parseHunkChars, if_pos hpre]
    have hdrop : ('@' :: '@' :: ' ' :: '-' ::
        (d1 ++ optPart o1 ++ ' ' :: '+' :: (d2 ++ optPart o2 ++ rest))).drop 4
        = d1 ++ optPart o1 ++ ' ' :: '+' :: (d2 ++ optPart o2 ++ rest) := rfl
    rw [hdrop]
    have htd : takeDigits (d1 ++ (optPart o1 ++ ' ' :: '+' :: (d2 ++ optPart o2 ++ rest)))
        = (d1, optPart o1 ++ ' ' :: '+' :: (d2 ++ optPart o2 ++ rest)) := by
      apply takeDigits_exact _ _ hd1.2
      cases o1 with
      | none => simp [optPart, headNotDigit]
      | some x => simp [optPart, headNotDigit]
    rw [parseAfterDash, List.append_assoc, htd]
    simp only
    rw [if_neg hd1.1]
    rw [parseOptCount_sp o1 _ ho1]
    simp only
    rw [parseSecond, if_pos (by simp [sSpPlus, hasPre] : hasPre sSpPlus
      (' ' :: '+' :: (d2 ++ optPart o2 ++ rest)) = true)]
    have hdrop2 : (' ' :: '+' :: (d2 ++ optPart o2 ++ rest)).drop 2
        = d2 ++ optPart o2 ++ rest := rfl
    rw [hdrop2]
    have htd2 : takeDigits (d2 ++ (optPart o2 ++ rest))
        = (d2 ++ (takeDigits (optPart o2 ++ rest)).1, (takeDigits (optPart o2 ++ rest)).2) :=
      takeDigits_append _ _ hd2.2
    rw [List.append_assoc, htd2]
    simp only
    rw [if_neg (by simp [hd2.1])]
    simp

theorem hasPre_of_append {p q l : List Char} (h : hasPre (p ++ q) l = true) :
    hasPre p l = true := by
  obtain ⟨t, rfl⟩ := (hasPre_iff _ _).1 h
  exact (hasPre_iff _ _).2 ⟨q ++ t, by simp⟩

theorem remLine_inc (l : String) : (!(isAddLine l) && isRemLine l) = isRemLine l := by
  cases hr : isRemLine l with
  | false => simp
  | true =>
    have hd : hasPre sDash1 l.data = true := by
      have h2 := hr
      rw [isRemLine, Bool.and_eq_true] at h2
      exact h2.1
    have hp : startsW l sPlus1 = false := hasPre_false_of_ne hd (by decide)
    simp [isAddLine, hp]

theorem flushHunk_good {cur : Option DiffFile} {hk : Option DiffHunk}
    (h1 : ∀ f, cur = some f → ∀ h ∈ f.hunks, GoodHunk h)
    (h2 : ∀ h, hk = some h → GoodHunk h) :
    ∀ f, flushHunk cur hk = some f → ∀ h ∈ f.hunks, GoodHunk h := by
  intro f hf h hh
  cases cur with
  | none => cases hk <;> simp [flushHunk] at hf
  | some g =>
    cases hk with
    | none =>
      simp [flushHunk] at hf
      subst hf
      exact h1 g rfl h hh
    | some k =>
      simp only [flushHunk, Option.some.injEq] at hf
      subst hf
      have hh2 : h ∈ g.hunks ++ [k] := hh
      rcases List.mem_append.1 hh2 with hg2 | hlast
      · exact h1 g rfl h hg2
      · rw [List.mem_singleton] at hlast
        subst hlast
        exact h2 h rfl

theorem pushCur_good {files : List DiffFile} {cur : Option DiffFile}
    (h1 : ∀ f ∈ files, ∀ h ∈ f.hunks, GoodHunk h)
    (h2 : ∀ f, cur = some f → ∀ h ∈ f.hunks, GoodHunk h) :
    ∀ f ∈ pushCur files cur, ∀ h ∈ f.hunks, GoodHunk h := by
  intro f hf h hh
  cases cur with
  | none =>
    simp only [pushCur] at hf
    exact h1 f hf h hh
  | some g =>
    simp only [pushCur] at hf
    rcases List.mem_append.1 hf with hmem | hlast
    · exact h1 f hmem h hh
    · rw [List.mem_singleton] at hlast
      subst hlast
      exact h2 f rfl h hh

theorem step_good {st st2 : PState} {line : String} (hg : GoodState st)
    (hs : step st line = some st2) : GoodState st2 := by
  obtain ⟨hgf, hgc, hgh⟩ := hg
  rw [step] at hs
  by_cases h1 : startsW line sDiffGit
  · rw [if_pos h1] at hs
    obtain rfl := Option.some.inj hs
    refine ⟨pushCur_good hgf (flushHunk_good hgc hgh), ?_, ?_⟩
    · intro f hf h hh
      obtain rfl := Option.some.inj hf
      simp at hh
    · intro h hh
      exact Option.noConfusion hh
  rw [if_neg h1] at hs
  by_cases h2 : startsW line sNewFileMode
  · rw [if_pos h2] at hs
    obtain rfl := Option.some.inj hs
    refine ⟨hgf, ?_, hgh⟩
    intro f hf h hh
    cases hc : st.cur with
    | none => rw [hc] at hf; exact Option.noConfusion hf
    | some g =>
      rw [hc] at hf
      obtain rfl := Option.some.inj hf
      exact hgc g hc h hh
  rw [if_neg h2] at hs
  by_cases h3 : startsW line sDelFileMode
  · rw [if_pos h3] at hs
    obtain rfl := Option.some.inj hs
    refine ⟨hgf, ?_, hgh⟩
    intro f hf h hh
    cases hc : st.cur with
    | none => rw [hc] at hf; exact Option.noConfusion hf
    | some g =>
      rw [hc] at hf
      obtain rfl := Option.some.inj hf
      exact hgc g hc h hh
  rw [if_neg h3] at hs
  by_cases h4 : (startsW line sDashSp || startsW line sPlusSp) = true
  · rw [if_pos h4] at hs
    obtain rfl := Option.some.inj hs
    refine ⟨hgf, ?_, hgh⟩
    intro f hf h hh
    cases hc : st.cur with
    | none => rw [hc] at hf; simp [markerPath] at hf
    | some g =>
      rw [hc] at hf
      simp only [markerPath] at hf
      by_cases hp : g.file_path = ""
      · rw [if_pos hp] at hf
        by_cases hb : startsW line sPlusB
        · rw [if_pos hb] at hf
          obtain rfl := Option.some.inj hf
          exact hgc g hc h hh
        rw [if_neg hb] at hf
        by_cases ha : startsW line sDashA
        · rw [if_pos ha] at hf
          obtain rfl := Option.some.inj hf
          exact hgc g hc h hh
        · rw [if_neg ha] at hf
          obtain rfl := Option.some.inj hf
          exact hgc g hc h hh
      · rw [if_neg hp] at hf
        obtain rfl := Option.some.inj hf
        exact hgc g hc h hh
  rw [if_neg h4] at hs
  by_cases h5 : startsW line sAtAt
  · rw [if_pos h5] at hs
    cases hp : parseHunkChars (pyStrip line.data) with
    | none => rw [hp] at hs; exact Option.noConfusion hs
    | some q =>
      obtain ⟨a, b, c, d⟩ := q
      rw [hp] at hs
      obtain rfl := Option.some.inj hs
      refine ⟨hgf, flushHunk_good hgc hgh, ?_⟩
      intro h hh
      obtain rfl := Option.some.inj hh
      constructor <;> simp
  rw [if_neg h5] at hs
  cases hhk : st.hk with
  | none =>
    rw [hhk] at hs
    obtain rfl := Option.some.inj hs
    exact ⟨hgf, hgc, hgh⟩
  | some h0 =>
    rw [hhk] at hs
    obtain rfl := Option.some.inj hs
    refine ⟨hgf, hgc, ?_⟩
    intro h hh
    obtain rfl := Option.some.inj hh
    obtain ⟨e1, e2⟩ := hgh h0 hhk
    constructor
    · show h0.added_lines + _ = (h0.content ++ [line]).countP isAddLine
      rw [List.countP_append, e1]
      simp [List.countP_cons]
    · show h0.removed_lines + _ = (h0.content ++ [line]).countP isRemLine
      rw [List.countP_append, e2, remLine_inc]
      simp [List.countP_cons]

theorem runDiff_good (lines : List String) : ∀ (st st2 : PState),
    GoodState st → runDiff st lines = some st2 → GoodState st2 := by
  induction lines with
  | nil =>
    intro st st2 hg hr
    simp only [runDiff] at hr
    obtain rfl := Option.some.inj hr
    exact hg
  | cons l ls ih =>
    intro st st2 hg hr
    simp only [runDiff] at hr
    cases hstep : step st l with
    | none => rw [hstep] at hr; exact Option.noConfusion hr
    | some stm =>
      rw [hstep] at hr
      exact ih stm st2 (step_good hg hstep) hr

/-- C4: for every DiffHunk produced by the unified-diff parse of any raw diff
text, added_lines equals the number of content lines starting with plus but
not triple plus, and removed_lines equals the number of content lines starting
with dash but not triple dash. -/
theorem diff_hunk_counts (lines : List String) (fs : List DiffFile)
    (h : parseUnifiedDiff lines = some fs) :
    ∀ f ∈ fs, ∀ hk ∈ f.hunks,
      hk.added_lines = hk.content.countP isAddLine ∧
      hk.removed_lines = hk.content.countP isRemLine := by
  rw [parseUnifiedDiff] at h
  cases hr : runDiff ⟨[], none, none⟩ lines with
  | none => rw [hr] at h; exact Option.noConfusion h
  | some st =>
    rw [hr] at h
    obtain rfl := Option.some.inj h
    have hg0 : GoodState ⟨[], none, none⟩ := ⟨by simp, by simp, by simp⟩
    obtain ⟨hf, hc, hh⟩ := runDiff_good lines _ st hg0 hr
    intro f hfm hk hkm
    exact pushCur_good hf (flushHunk_good hc hh) f hfm hk hkm

/-- Witness for C4 at a concrete raw diff. -/
theorem diff_hunk_counts_witness :
    parseUnifiedDiff exDiffLines = some exDiffParsed ∧
    ∀ f ∈ exDiffParsed, ∀ hk ∈ f.hunks,
      hk.added_lines = hk.content.countP isAddLine ∧
      hk.removed_lines = hk.content.countP isRemLine :=
  ⟨by decide, diff_hunk_counts exDiffLines exDiffParsed (by decide)⟩

/-- C5 counterexample: a file section containing both a dash-dash-dash-a
marker and a plus-plus-plus-b marker stores the path of the first marker seen
(here the dash form, path old), not the plus-plus-plus-b form (new) that the
claim prefers. -/
theorem diff_path_counterexample :
    (parseUnifiedDiff [("diff --git a/x b/x"), ("--- a/old"), ("+++ b/new")]).map
      (fun fs => fs.map (fun f => f.file_path)) = some [("old")] ∧
    ("old" : String) ≠ ("new") := by
  constructor
  · decide
  · decide

/-- C5 amended: the open file's path is set at most once, by the first marker
line matching the plus-plus-plus-b or dash-dash-dash-a six-character form
(the plus form checked first on each line), stripping that prefix; once the
path is nonempty a marker line leaves the state unchanged. -/
theorem diff_path_first_marker (st : PState) (f : DiffFile) (line : String)
    (hcur : st.cur = some f) :
    (f.file_path ≠ "" → (startsW line sDashSp || startsW line sPlusSp) = true →
      step st line = some ⟨st.files, some f, st.hk⟩) ∧
    (f.file_path = "" → startsW line sPlusB = true →
      step st line = some ⟨st.files, some { f with file_path := ⟨line.data.drop 6⟩ }, st.hk⟩) ∧
    (f.file_path = "" → startsW line sPlusB = false → startsW line sDashA = true →
      step st line = some ⟨st.files, some { f with file_path := ⟨line.data.drop 6⟩ }, st.hk⟩) := by
  refine ⟨?_, ?_, ?_⟩
  · intro hpath hmark
    have hrw : markerPath st.cur line = some f := by
      rw [hcur]
      simp only [markerPath]
      rw [if_neg hpath]
    rcases Bool.or_eq_true_iff.1 hmark with hm | hm
    · have e1 : startsW line sDiffGit = false := hasPre_false_of_ne hm (by decide)
      have e2 : startsW line sNewFileMode = false := hasPre_false_of_ne hm (by decide)
      have e3 : startsW line sDelFileMode = false := hasPre_false_of_ne hm (by decide)
      rw [step, if_neg (by simp [e1]), if_neg (by simp [e2]), if_neg (by simp [e3]),
        if_pos hmark, hrw]
    · have e1 : startsW line sDiffGit = false := hasPre_false_of_ne hm (by decide)
      have e2 : startsW line sNewFileMode = false := hasPre_false_of_ne hm (by decide)
      have e3 : startsW line sDelFileMode = false := hasPre_false_of_ne hm (by decide)
      rw [step, if_neg (by simp [e1]), if_neg (by simp [e2]), if_neg (by simp [e3]),
        if_pos hmark, hrw]
  · intro hpath hplusb
    have hps : startsW line sPlusSp = true := hasPre_of_append (q := ['b', '/']) hplusb
    have e1 : startsW line sDiffGit = false := hasPre_false_of_ne hps (by decide)
    have e2 : startsW line sNewFileMode = false := hasPre_false_of_ne hps (by decide)
    have e3 : startsW line sDelFileMode = false := hasPre_false_of_ne hps (by decide)
    have hrw : markerPath st.cur line = some { f with file_path := ⟨line.data.drop 6⟩ } := by
      rw [hcur]
      simp only [markerPath]
      rw [if_pos hpath, if_pos hplusb]
    rw [step, if_neg (by simp [e1]), if_neg (by simp [e2]), if_neg (by simp [e3]),
      if_pos (by simp [hps]), hrw]
  · intro hpath hplusb hdasha
    have hds : startsW line sDashSp = true := hasPre_of_append (q := ['a', '/']) hdasha
    have e1 : startsW line sDiffGit = false := hasPre_false_of_ne hds (by decide)
    have e2 : startsW line sNewFileMode = false := hasPre_false_of_ne hds (by decide)
    have e3 : startsW line sDelFileMode = false := hasPre_false_of_ne hds (by decide)
    have hrw : markerPath st.cur line = some { f with file_path := ⟨line.data.drop 6⟩ } := by
      rw [hcur]
      simp only [markerPath]
      rw [if_pos hpath, if_neg (by simp [hplusb]), if_pos hdasha]
    rw [step, if_neg (by simp [e1]), if_neg (by simp [e2]), if_neg (by simp [e3]),
      if_pos (by simp [hds]), hrw]

/-- Witness for the amended C5 at a concrete marker line. -/
theorem diff_path_first_marker_witness :
    step ⟨[], some ⟨"", "modified", []⟩, none⟩ ("+++ b/new") =
      some ⟨[], some ⟨⟨("+++ b/new").data.drop 6⟩, "modified", []⟩, none⟩ :=
  (diff_path_first_marker ⟨[], some ⟨"", "modified", []⟩, none⟩
    ⟨"", "modified", []⟩ ("+++ b/new") rfl).2.1 rfl (by decide)

theorem countsApply_keeps (fc : FileChange) (cp : List Char) :
    (countsApply fc cp).change_type = fc.change_type ∧
    (countsApply fc cp).path = fc.path ∧
    (countsApply fc cp).old_path = fc.old_path := by
  rw [countsApply]
  by_cases h1 : hasPre sBin cp
  · rw [if_pos h1]; exact ⟨rfl, rfl, rfl⟩
  rw [if_neg h1]
  by_cases h2 : (firstTok cp).isEmpty
  · rw [if_pos h2]; exact ⟨rfl, rfl, rfl⟩
  rw [if_neg h2]
  cases pyIntTok (firstTok cp) with
  | none => exact ⟨rfl, rfl, rfl⟩
  | some n => exact ⟨rfl, rfl, rfl⟩

theorem parseCompact_fields (s : String) (h1 : (pyStrip s.data).isEmpty = false)
    (h2 : (pyStrip s.data).contains '|' = true) :
    ∃ fc, parse_compact_summary_line s = some fc ∧
      fc.change_type = (classifyLeft (leftPartOf s)).1 ∧
      fc.path = (⟨(classifyLeft (leftPartOf s)).2.1⟩ : String) ∧
      fc.old_path = ((classifyLeft (leftPartOf s)).2.2).map (fun a => (⟨a⟩ : String)) := by
  have hp : parse_compact_summary_line s =
      some (countsApply
        ⟨⟨(classifyLeft (leftPartOf s)).2.1⟩, (classifyLeft (leftPartOf s)).1,
          ((classifyLeft (leftPartOf s)).2.2).map (fun a => (⟨a⟩ : String)),
          none, false, none, none, none⟩
        (rightPartOf s)) := by
    rw [parse_compact_summary_line, if_neg (by simp [h1]), if_neg (by rw [h2]; simp)]
  exact ⟨_, hp, (countsApply_keeps _ _).1, (countsApply_keeps _ _).2.1,
    (countsApply_keeps _ _).2.2⟩

/-- C6: for every non-blank compact-summary line containing a pipe, the left
part determines the change type as the claim states: a literal
space-arrow-space yields renamed with old_path and path the two trimmed
halves; a trailing space-paren-new suffix yields added with the suffix
stripped; a trailing space-paren-gone suffix yields deleted; otherwise
modified with the whole left part as path; and the concrete rename line with a
zero count parses to renamed, old_path renamed.txt, path new_name.txt and
changes zero. -/
theorem compact_summary_classify :
    (∀ s : String, (pyStrip s.data).isEmpty = false → (pyStrip s.data).contains '|' = true →
      ∃ fc, parse_compact_summary_line s = some fc ∧
        (∀ a b, splitFirstSub sArrowSep (leftPartOf s) = some (a, b) →
          fc.change_type = GitFileChangeType.renamed ∧
          fc.old_path = some (⟨pyStrip a⟩ : String) ∧ fc.path = (⟨pyStrip b⟩ : String)) ∧
        (splitFirstSub sArrowSep (leftPartOf s) = none →
          endsW (leftPartOf s) sNewSuf = true →
          fc.change_type = GitFileChangeType.added ∧
          fc.path = (⟨pyStrip ((leftPartOf s).take ((leftPartOf s).length - 6))⟩ : String) ∧
          fc.old_path = none) ∧
        (splitFirstSub sArrowSep (leftPartOf s) = none →
          endsW (leftPartOf s) sNewSuf = false →
          endsW (leftPartOf s) sGoneSuf = true →
          fc.change_type = GitFileChangeType.deleted ∧
          fc.path = (⟨pyStrip ((leftPartOf s).take ((leftPartOf s).length - 7))⟩ : String) ∧
          fc.old_path = none) ∧
        (splitFirstSub sArrowSep (leftPartOf s) = none →
          endsW (leftPartOf s) sNewSuf = false →
          endsW (leftPartOf s) sGoneSuf = false →
          fc.change_type = GitFileChangeType.modified ∧
          fc.path = (⟨leftPartOf s⟩ : String) ∧ fc.old_path = none)) ∧
    parse_compact_summary_line (" renamed.txt => new_name.txt | 0") =
      some ⟨("new_name.txt"), GitFileChangeType.renamed, some ("renamed.txt"),
        none, false, some 0, some 0, some 0⟩ := by
  constructor
  · intro s h1 h2
    obtain ⟨fc, hp, hct, hpath, hold⟩ := parseCompact_fields s h1 h2
    refine ⟨fc, hp, ?_, ?_, ?_, ?_⟩
    · intro a b hsp
      have hcls : classifyLeft (leftPartOf s)
          = (GitFileChangeType.renamed, pyStrip b, some (pyStrip a)) := by
        simp only [classifyLeft, hsp]
      rw [hcls] at hct hpath hold
      exact ⟨hct, by simpa using hold, hpath⟩
    · intro hsp hnew
      have hcls : classifyLeft (leftPartOf s)
          = (GitFileChangeType.added,
            pyStrip ((leftPartOf s).take ((leftPartOf s).length - 6)), none) := by
        simp only [classifyLeft, hsp]
        rw [if_pos hnew]
      rw [hcls] at hct hpath hold
      exact ⟨hct, hpath, by simpa using hold⟩
    · intro hsp hnew hgone
      have hcls : classifyLeft (leftPartOf s)
          = (GitFileChangeType.deleted,
            pyStrip ((leftPartOf s).take ((leftPartOf s).length - 7)), none) := by
        simp only [classifyLeft, hsp]
        rw [if_neg (by simp [hnew]), if_pos hgone]
      rw [hcls] at hct hpath hold
      exact ⟨hct, hpath, by simpa using hold⟩
    · intro hsp hnew hgone
      have hcls : classifyLeft (leftPartOf s)
          = (GitFileChangeType.modified, leftPartOf s, none) := by
        simp only [classifyLeft, hsp]
        rw [if_neg (by simp [hnew]), if_neg (by simp [hgone])]
      rw [hcls] at hct hpath hold
      exact ⟨hct, hpath, by simpa using hold⟩
  · decide

/-- Witness for C6 at a concrete modified-file line. -/
theorem compact_summary_classify_witness :
    ∃ fc, parse_compact_summary_line ("a.txt | 0") = some fc ∧
      fc.change_type = GitFileChangeType.modified ∧
      fc.path = ("a.txt" : String) ∧ fc.old_path = none := by
  obtain ⟨fc, hp, hc1, hc2, hc3, hc4⟩ :=
    compact_summary_classify.1 ("a.txt | 0") (by decide) (by decide)
  obtain ⟨ht, hpath, hold⟩ := hc4 (by decide) (by decide) (by decide)
  refine ⟨fc, hp, ht, ?_, hold⟩
  rw [hpath]
  decide

theorem mem_dropWhile_sub {p : Char → Bool} {l : List Char} {c : Char}
    (h : c ∈ l.dropWhile p) : c ∈ l := by
  induction l with
  | nil => simp at h
  | cons a as ih =>
    by_cases hp : p a
    · simp only [List.dropWhile, hp] at h
      exact List.mem_cons_of_mem a (ih h)
    · simp only [List.dropWhile, hp] at h
      simpa using h

theorem mem_pyStrip {l : List Char} {c : Char} (h : c ∈ pyStrip l) : c ∈ l := by
  rw [pyStrip] at h
  rw [List.mem_reverse] at h
  have h2 := mem_dropWhile_sub h
  rw [List.mem_reverse] at h2
  exact mem_dropWhile_sub h2

theorem mem_removePre {p l : List Char} {c : Char} (h : c ∈ removePre p l) : c ∈ l := by
  rw [removePre] at h
  by_cases hp : hasPre p l
  · rw [if_pos hp] at h
    exact List.mem_of_mem_drop h
  · rwa [if_neg hp] at h

theorem splitFirstSub_eq {sep l a b : List Char}
    (h : splitFirstSub sep l = some (a, b)) : l = a ++ sep ++ b := by
  induction l generalizing a b with
  | nil => simp [splitFirstSub] at h
  | cons c cs ih =>
    simp only [splitFirstSub] at h
    by_cases hp : hasPre sep (c :: cs)
    · rw [if_pos hp] at h
      have h2 := Option.some.inj h
      rw [Prod.mk.injEq] at h2
      obtain ⟨ha, hb⟩ := h2
      subst ha
      subst hb
      obtain ⟨t, ht⟩ := (hasPre_iff _ _).1 hp
      rw [ht]
      simp [List.drop_left]
    · rw [if_neg hp] at h
      cases hsp : splitFirstSub sep cs with
      | none => rw [hsp] at h; exact Option.noConfusion h
      | some pr =>
        obtain ⟨a2, b2⟩ := pr
        rw [hsp] at h
        have h2 := Option.some.inj h
        rw [Prod.mk.injEq] at h2
        obtain ⟨ha, hb⟩ := h2
        subst ha
        subst hb
        rw [ih hsp]
        simp

theorem branchFromLine_current (cur : Bool) (l : List Char) :
    (branchFromLine cur l).is_current = cur := by
  cases hsp : splitFirstSub sArrow2 l with
  | none => simp [branchFromLine, hsp]
  | some pr =>
    obtain ⟨np, tp⟩ := pr
    simp [branchFromLine, hsp]

theorem branchFromLine_name_sub (cur : Bool) (l : List Char) :
    ∀ c ∈ (branchFromLine cur l).name.data, c ∈ l := by
  intro c hc
  cases hsp : splitFirstSub sArrow2 l with
  | none =>
    rw [branchFromLine] at hc
    simp only [hsp] at hc
    exact mem_removePre hc
  | some pr =>
    obtain ⟨np, tp⟩ := pr
    rw [branchFromLine] at hc
    simp only [hsp] at hc
    have h2 : c ∈ np := mem_pyStrip (mem_removePre hc)
    rw [splitFirstSub_eq hsp]
    exact List.mem_append_left _ (List.mem_append_left _ h2)

/-- C9 counterexample: the code marks any line starting with a bare star as
current (line.startswith star, not star-space), so the line star-a-b-c, which
is not prefixed star-space, still parses with is_current true (and its first
two characters dropped). -/
theorem branch_star_counterexample :
    parse_git_branches ("*abc") = [⟨("bc"), true, false, none, none⟩] ∧
    startsW ("*abc") sStarSp = false := by
  constructor
  · decide
  · decide

/-- C9 amended: a branch-listing line is marked current exactly when its
trimmed form starts with a star (with or without the following space), and the
line then has its first two characters removed before further parsing; for a
line prefixed star-space whose remainder contains no star, the resulting name
contains no star, so the star-space prefix is absent from it. Lines not
starting with a star are not current. -/
theorem branch_current_star_amended (raw : List Char) :
    ((parseBranchLineL raw).is_current = hasPre sStar (pyStrip raw)) ∧
    (hasPre sStarSp (pyStrip raw) = true →
      (∀ c ∈ pyStrip ((pyStrip raw).drop 2), c ≠ '*') →
      ∀ c ∈ (parseBranchLineL raw).name.data, c ≠ '*') := by
  constructor
  · rw [parseBranchLineL, branchFromLine_current]
  · intro hst hnostar c hc
    have hstar : hasPre sStar (pyStrip raw) = true :=
      hasPre_of_append (q := [' ']) hst
    rw [parseBranchLineL, hstar, if_pos rfl] at hc
    exact hnostar c (branchFromLine_name_sub true _ c hc)

/-- Witness for the amended C9 at a concrete current-branch line. -/
theorem branch_current_star_amended_witness :
    (parseBranchLineL (['*', ' ', 'm', 'a', 'i', 'n'])).is_current
      = hasPre sStar (pyStrip ['*', ' ', 'm', 'a', 'i', 'n']) ∧
    ∀ c ∈ (parseBranchLineL (['*', ' ', 'm', 'a', 'i', 'n'])).name.data, c ≠ '*' :=
  ⟨(branch_current_star_amended ['*', ' ', 'm', 'a', 'i', 'n']).1,
    (branch_current_star_amended ['*', ' ', 'm', 'a', 'i', 'n']).2 (by decide) (by decide)⟩

/-- C1: the change-watcher resync condition compares commit_b against the
snapshot's commit_a (server.py line 437), so a set-commit-b that changes
endpoint B to the old endpoint A value produces only the session echo: no
compact summary is recomputed even though commit_b changed, although the
summary sender would emit one for this state. The spec's design notes call
this comparison a defect; the claim describes the intended behavior, which
the code violates here. -/
theorem watcher_commit_b_bug :
    watcherCurEx.commit_b ≠ watcherPrevEx.commit_b ∧
    watcherEvents watcherPrevEx watcherCurEx = [SEvent.sessionState watcherCurEx] ∧
    sendDiffSummary watcherCurEx ≠ [] := by
  refine ⟨by decide, by decide, by decide⟩

/-- C2 counterexample: a get-diff with no path list, in a state with an open
path, pushes a diff whose gateway call has no path filter (none), not one
scoped to the open paths as the claim states. -/
theorem get_diff_scope_counterexample :
    applyClientMsg (fun r => r) (MsgClient.getDiff none) getDiffStateEx =
      (getDiffStateEx, [SEvent.diff ("r") ("A") (some ("B")) {} none false], false) ∧
    (none : Option (List String)) ≠ some getDiffStateEx.open_paths := by
  refine ⟨by decide, by decide⟩

/-- C2 amended: handling get-diff mutates no session field and does not signal
the change watcher; when the repository and endpoint A are truthy it pushes
exactly one diff event whose gateway call uses the given path list as filter
(none meaning the unrestricted full diff, not the open-path set) and whose
partial flag is true exactly when an explicit list was given; otherwise it
pushes nothing. -/
theorem get_diff_amended (resolve : String → String) (paths : Option (List String))
    (s : SessionState) :
    (applyClientMsg resolve (MsgClient.getDiff paths) s).1 = s ∧
    (applyClientMsg resolve (MsgClient.getDiff paths) s).2.2 = false ∧
    (truthyS s.repo = true → truthyS s.commit_a = true →
      ∃ b, (applyClientMsg resolve (MsgClient.getDiff paths) s).2.1
        = [SEvent.diff (s.repo.getD ("")) (s.commit_a.getD ("")) b s.git_flags
            paths paths.isSome]) ∧
    (truthyS s.repo = false ∨ truthyS s.commit_a = false →
      (applyClientMsg resolve (MsgClient.getDiff paths) s).2.1 = []) := by
  refine ⟨rfl, rfl, ?_, ?_⟩
  · intro hr ha
    have he : (applyClientMsg resolve (MsgClient.getDiff paths) s).2.1
        = sendDiff paths s := rfl
    rw [he, sendDiff]
    by_cases hb : truthyS s.commit_b
    · rw [if_pos (by simp [hr, ha, hb])]
      exact ⟨_, rfl⟩
    · rw [if_neg (by simp [hb]), if_pos (by simp [hr, ha])]
      exact ⟨_, rfl⟩
  · intro h
    have he : (applyClientMsg resolve (MsgClient.getDiff paths) s).2.1
        = sendDiff paths s := rfl
    rw [he, sendDiff]
    rcases h with h | h
    · rw [if_neg (by simp [h]), if_neg (by simp [h])]
    · rw [if_neg (by simp [h]), if_neg (by simp [h])]

/-- Witness for the amended C2 on the fresh session state. -/
theorem get_diff_amended_witness :
    (applyClientMsg (fun r => r) (MsgClient.getDiff none) initialSessionState).1
      = initialSessionState ∧
    (applyClientMsg (fun r => r) (MsgClient.getDiff none) initialSessionState).2.1 = [] :=
  ⟨(get_diff_amended (fun r => r) none initialSessionState).1,
    (get_diff_amended (fun r => r) none initialSessionState).2.2.2 (Or.inl (by decide))⟩

/-- C10: whenever endpoint A is unset, or no repository is selected, send_diff
and send_diff_summary produce no event at all, even if endpoint B is set. -/
theorem send_diff_requires_repo_a (s : SessionState) (paths : Option (List String))
    (h : s.commit_a = none ∨ s.repo = none) :
    sendDiff paths s = [] ∧ sendDiffSummary s = [] := by
  have ht : truthyS s.commit_a = false ∨ truthyS s.repo = false := by
    rcases h with h | h
    · left; rw [h]; rfl
    · right; rw [h]; rfl
  constructor
  · rw [sendDiff]
    rcases ht with h2 | h2
    · rw [if_neg (by simp [h2]), if_neg (by simp [h2])]
    · rw [if_neg (by simp [h2]), if_neg (by simp [h2])]
  · rw [sendDiffSummary]
    rcases ht with h2 | h2
    · rw [if_neg (by simp [h2]), if_neg (by simp [h2])]
    · rw [if_neg (by simp [h2]), if_neg (by simp [h2])]

/-- Witness for C10 at a state with endpoint B set but endpoint A unset. -/
theorem send_diff_requires_repo_a_witness :
    sendDiff none noAEx = [] ∧ sendDiffSummary noAEx = [] :=
  send_diff_requires_repo_a noAEx none (Or.inl rfl)

theorem applyMsg_open_paths (resolve : String → String) (op : PathOp) (s : SessionState) :
    (applyClientMsg resolve (pathOpMsg op) s).1.open_paths = listStep s.open_paths op := by
  cases op with
  | openP p =>
    by_cases hp : p ∈ s.open_paths
    · simp [applyClientMsg, pathOpMsg, listStep, hp]
    · simp [applyClientMsg, pathOpMsg, listStep, hp]
  | closeP p =>
    by_cases hp : p ∈ s.open_paths
    · simp [applyClientMsg, pathOpMsg, listStep, hp]
    · simp [applyClientMsg, pathOpMsg, listStep, hp]

theorem applyMsgs_pathOps (resolve : String → String) (ops : List PathOp) (s : SessionState) :
    (applyMsgs resolve (ops.map pathOpMsg) s).open_paths
      = ops.foldl listStep s.open_paths := by
  induction ops generalizing s with
  | nil => rfl
  | cons op ops ih =>
    rw [List.map_cons, applyMsgs, List.foldl_cons]
    rw [show (ops.map pathOpMsg).foldl (fun st m => (applyClientMsg resolve m st).1)
        (applyClientMsg resolve (pathOpMsg op) s).1
      = applyMsgs resolve (ops.map pathOpMsg) (applyClientMsg resolve (pathOpMsg op) s).1
      from rfl]
    rw [ih, List.foldl_cons, applyMsg_open_paths]

theorem listFold_spec (ops : List PathOp) :
    ∀ (l : List String) (t : Finset String), l.Nodup → (∀ x, x ∈ l ↔ x ∈ t) →
      (ops.foldl listStep l).Nodup ∧
      (∀ x, x ∈ ops.foldl listStep l ↔ x ∈ foldSet ops t) := by
  induction ops with
  | nil =>
    intro l t hnd hmem
    exact ⟨hnd, fun x => by simpa [foldSet] using hmem x⟩
  | cons op ops ih =>
    intro l t hnd hmem
    rw [List.foldl_cons]
    rw [show foldSet (op :: ops) t = foldSet ops (setStep t op) from rfl]
    apply ih
    · cases op with
      | openP p =>
        by_cases hp : p ∈ l
        · simpa [listStep, hp] using hnd
        · rw [listStep, if_neg hp]
          exact List.Nodup.append hnd (List.nodup_singleton p)
            (by simpa using fun hq => hp hq)
      | closeP p =>
        by_cases hp : p ∈ l
        · rw [listStep, if_pos hp]
          exact hnd.erase p
        · rwa [listStep, if_neg hp]
    · intro x
      cases op with
      | openP p =>
        rw [listStep, setStep]
        by_cases hp : p ∈ l
        · rw [if_pos hp]
          rw [Finset.mem_insert, ← hmem x]
          constructor
          · intro hx; exact Or.inr hx
          · rintro (rfl | hx)
            · exact hp
            · exact hx
        · rw [if_neg hp]
          rw [Finset.mem_insert, ← hmem x]
          simp [List.mem_append, or_comm]
      | closeP p =>
        rw [listStep, setStep]
        by_cases hp : p ∈ l
        · rw [if_pos hp]
          rw [Finset.mem_erase, ← hmem x]
          exact hnd.mem_erase_iff
        · rw [if_neg hp]
          rw [Finset.mem_erase, ← hmem x]
          constructor
          · intro hx
            refine ⟨?_, hx⟩
            rintro rfl
            exact hp hx
          · intro hx
            exact hx.2

/-- C7: for every finite sequence of open-path and close-path commands applied
to a duplicate-free session state, the resulting expanded-path list stays
duplicate-free and its membership equals the set-semantics fold where opening
an already-present path and closing an absent path are no-ops. -/
theorem open_close_paths_set (resolve : String → String) (ops : List PathOp)
    (s : SessionState) (hnd : s.open_paths.Nodup) :
    (applyMsgs resolve (ops.map pathOpMsg) s).open_paths.Nodup ∧
    ∀ x, x ∈ (applyMsgs resolve (ops.map pathOpMsg) s).open_paths ↔
      x ∈ foldSet ops s.open_paths.toFinset := by
  rw [applyMsgs_pathOps]
  exact listFold_spec ops s.open_paths s.open_paths.toFinset hnd (fun x => by simp)

/-- Witness for C7 on the fresh session state with one open and one close. -/
theorem open_close_paths_set_witness :
    (applyMsgs (fun r => r)
      ([PathOp.openP ("a"), PathOp.closeP ("a")].map pathOpMsg)
      initialSessionState).open_paths.Nodup ∧
    ∀ x, x ∈ (applyMsgs (fun r => r)
        ([PathOp.openP ("a"), PathOp.closeP ("a")].map pathOpMsg)
        initialSessionState).open_paths ↔
      x ∈ foldSet [PathOp.openP ("a"), PathOp.closeP ("a")]
        initialSessionState.open_paths.toFinset :=
  open_close_paths_set (fun r => r) [PathOp.openP ("a"), PathOp.closeP ("a")]
    initialSessionState (by decide)

theorem ctx_step (resolve : String → String) (m : MsgClient) (s : SessionState)
    (h : 0 ≤ s.git_flags.context_lines) :
    0 ≤ (applyClientMsg resolve m s).1.git_flags.context_lines := by
  cases m with
  | contextInc => simp only [applyClientMsg]; omega
  | contextDec =>
    by_cases hc : s.git_flags.context_lines > 0
    · rw [applyClientMsg, if_pos hc]; simp only; omega
    · rw [applyClientMsg, if_neg hc]; exact h
  | contextReset =>
    by_cases hc : s.git_flags.context_lines ≠ 3
    · rw [applyClientMsg, if_pos hc]; simp only; omega
    · rw [applyClientMsg, if_neg hc]; exact h
  | repoSelect r =>
    by_cases hc : s.repo ≠ some r
    · rw [applyClientMsg, if_pos hc]; exact h
    · rw [applyClientMsg, if_neg hc]; exact h
  | branchSelect b =>
    by_cases hc : s.branch ≠ some b
    · rw [applyClientMsg, if_pos hc]; exact h
    · rw [applyClientMsg, if_neg hc]; exact h
  | openPath p =>
    by_cases hc : p ∈ s.open_paths
    · rw [applyClientMsg, if_pos hc]; exact h
    · rw [applyClientMsg, if_neg hc]; exact h
  | closePath p =>
    by_cases hc : p ∈ s.open_paths
    · rw [applyClientMsg, if_pos hc]; exact h
    · rw [applyClientMsg, if_neg hc]; exact h
  | ping => exact h
  | pong => exact h
  | heartbeat t => exact h
  | setCommitA c => exact h
  | resetCommitA => exact h
  | setCommitB c => exact h
  | resetCommitB => exact h
  | swapCommits => exact h
  | ignoreAllSpace v => exact h
  | getDiff paths => exact h
  | setOpenPaths ps => exact h

theorem ctx_fold (resolve : String → String) (ms : List MsgClient) :
    ∀ s : SessionState, 0 ≤ s.git_flags.context_lines →
      0 ≤ (applyMsgs resolve ms s).git_flags.context_lines := by
  induction ms with
  | nil => intro s h; exact h
  | cons m ms ih =>
    intro s h
    rw [applyMsgs, List.foldl_cons]
    exact ih _ (ctx_step resolve m s h)

/-- C8: starting from the initial state the context line count stays
nonnegative after every sequence of commands; context-inc adds one,
context-dec takes the maximum of the decremented value and zero (a no-op at
zero), and context-reset sets three. -/
theorem context_lines_spec (resolve : String → String) (msgs : List MsgClient)
    (s : SessionState) (hs : 0 ≤ s.git_flags.context_lines) :
    0 ≤ (applyMsgs resolve msgs initialSessionState).git_flags.context_lines ∧
    (applyClientMsg resolve MsgClient.contextInc s).1.git_flags.context_lines
      = s.git_flags.context_lines + 1 ∧
    (applyClientMsg resolve MsgClient.contextDec s).1.git_flags.context_lines
      = max (s.git_flags.context_lines - 1) 0 ∧
    (applyClientMsg resolve MsgClient.contextReset s).1.git_flags.context_lines = 3 := by
  refine ⟨ctx_fold resolve msgs initialSessionState (by decide), rfl, ?_, ?_⟩
  · by_cases hc : s.git_flags.context_lines > 0
    · rw [applyClientMsg, if_pos hc]
      simp only
      rw [max_eq_left (by omega)]
    · rw [applyClientMsg, if_neg hc]
      have h0 : s.git_flags.context_lines = 0 := by omega
      rw [h0]
      decide
  · by_cases hc : s.git_flags.context_lines ≠ 3
    · rw [applyClientMsg, if_pos hc]
    · rw [applyClientMsg, if_neg hc]
      simp only [ne_eq, not_not] at hc
      exact hc

/-- Witness for C8 on the fresh session state and the empty command list. -/
theorem context_lines_spec_witness :
    0 ≤ (applyMsgs (fun r => r) [] initialSessionState).git_flags.context_lines ∧
    (applyClientMsg (fun r => r) MsgClient.contextInc
      initialSessionState).1.git_flags.context_lines
      = initialSessionState.git_flags.context_lines + 1 ∧
    (applyClientMsg (fun r => r) MsgClient.contextDec
      initialSessionState).1.git_flags.context_lines
      = max (initialSessionState.git_flags.context_lines - 1) 0 ∧
    (applyClientMsg (fun r => r) MsgClient.contextReset
      initialSessionState).1.git_flags.context_lines = 3 :=
  context_lines_spec (fun r => r) [] initialSessionState (by decide)

end Diffodil
